import Mathlib

/-!
Verification of the lexicon-based ABSA core (`src/lexicon_absa.py`, helpers in
`src/utils.py`, data class in `src/base.py`).

The Python code is shallowly embedded:
* the emoji normalizer (`text.replace(emo, " word ")` folded over `emoji_map`)
  is modelled on `List Char` — Python `str` is a sequence of unicode
  codepoints, exactly a Lean `List Char`; `replaceAll` mirrors Python
  `str.replace` (leftmost, non-overlapping, no rescan of the replacement);
* the spaCy parse is an abstract `Doc` (tokens with pos/dep/head data and
  noun chunks) — the parser itself is an external collaborator;
* VADER is an abstract scorer function `String → Breakdown`;
* Python floats are modelled as exact rationals (`ℚ`).
-/

namespace Absa

/-! ### Normalizer (lexicon_absa.py lines 43-44, emoji_map lines 30-36) -/

/-- Python `s.replace(pat, repl)` on codepoint lists: scan left to right,
replace each non-overlapping occurrence of `pat` by `repl`, and continue
after the inserted replacement (the replacement is not rescanned). -/
def replaceAll (pat repl : List Char) : List Char → List Char
  | [] => []
  | c :: rest =>
    if h : pat ≠ [] ∧ pat.isPrefixOf (c :: rest) then
      repl ++ replaceAll pat repl ((c :: rest).drop pat.length)
    else
      c :: replaceAll pat repl rest
termination_by s => s.length
decreasing_by
  · simp only [List.length_drop, List.length_cons]
    have hp : 0 < pat.length := List.length_pos.mpr h.1
    omega
  · simp

/-- Predicate `occursB pat s`: does `pat` occur as a contiguous substring of `s`? -/
def occursB (pat : List Char) : List Char → Bool
  | [] => pat.isPrefixOf []
  | c :: t => pat.isPrefixOf (c :: t) || occursB pat t

/-- The replacement word is padded with spaces on both sides:
Python `f" {word} "`. -/
def padWord (w : List Char) : List Char := ' ' :: (w ++ [' '])

/-- Table `self.emoji_map` from lexicon_absa.py lines 30-36, in Python dict
insertion order (Python dicts iterate in insertion order). -/
def emojiPairs : List (List Char × List Char) :=
  [("💘".data, "love".data), ("❤️".data, "love".data), ("💕".data, "love".data),
   ("😍".data, "love".data), ("😘".data, "love".data),
   ("😡".data, "angry".data), ("🤬".data, "furious".data), ("😢".data, "sad".data),
   ("😭".data, "crying".data), ("😂".data, "laughing".data),
   ("🤣".data, "laughing".data), ("😔".data, "sad".data), ("🙂".data, "smile".data),
   ("😊".data, "smile".data), (":)".data, "smile".data),
   (":(".data, "sad".data), (":/".data, "disappointed".data), ("😒".data, "annoyed".data),
   ("😩".data, "tired".data),
   ("😃".data, "happy".data), ("😆".data, "happy".data)]

def normStep (t : List Char) (pw : List Char × List Char) : List Char :=
  replaceAll pw.1 (padWord pw.2) t

def normAux (ps : List (List Char × List Char)) (s : List Char) : List Char :=
  ps.foldl normStep s

/-- The emoji pre-normalization loop of `analyze` (lines 43-44):
`for emo, word in self.emoji_map.items(): text = text.replace(emo, f" {word} ")`. -/
def normalize (s : List Char) : List Char := normAux emojiPairs s

/-! #### Normalizer lemmas -/

/-- Characters that may appear in a replacement word (space or lowercase
ascii letter); every emoji glyph consists of characters outside this set. -/
def wordChar (c : Char) : Prop := c = ' ' ∨ ('a' ≤ c ∧ c ≤ 'z')

instance (c : Char) : Decidable (wordChar c) := by
  unfold wordChar; infer_instance

def goodPair (pw : List Char × List Char) : Prop :=
  pw.1 ≠ [] ∧ pw.2 ≠ [] ∧ (∀ c ∈ pw.1, ¬ wordChar c) ∧ (∀ c ∈ pw.2, wordChar c)

instance (pw : List Char × List Char) : Decidable (goodPair pw) := by
  unfold goodPair; infer_instance

/-! ### Data model (base.py lines 6-13; spaCy token view) -/

/-- A parsed token, the view of a spaCy `Token` that the code reads:
surface text, precomputed lowercase form (`lower_`), coarse pos tag
(`pos_`), dependency label (`dep_`), position in the document (`i`),
character offset (`idx`) and the position of the syntactic head (`head`).
In spaCy the head is never `None` (the root is its own head), so `head`
is a plain index. -/
structure Token where
  text : String
  lower : String
  pos : String
  dep : String
  i : Nat
  idx : Nat
  head : Nat
deriving DecidableEq

/-- A noun-chunk span: the code only iterates over its tokens. -/
structure Chunk where
  toks : List Token
deriving DecidableEq

/-- The parsed document: tokens in document order plus noun chunks. -/
structure Doc where
  tokens : List Token
  chunks : List Chunk
deriving DecidableEq

/-- VADER `polarity_scores` output `{neg, neu, pos, compound}`;
floats modelled as exact rationals. -/
structure Breakdown where
  neg : ℚ
  neu : ℚ
  pos : ℚ
  compound : ℚ
deriving DecidableEq

/-- Record `AspectSentiment` from base.py lines 6-13 (with the two optional
fields always filled, as `LexiconABSA.analyze` does). -/
structure AspectSentiment where
  aspect : String
  sentiment : String
  confidence : ℚ
  text_span : Nat × Nat
  vader_breakdown : Breakdown
deriving DecidableEq

/-- Python `str.lower` for one character, exact on ascii (the only
characters these claims compare). -/
def lowerChar (c : Char) : Char :=
  if 'A' ≤ c ∧ c ≤ 'Z' then Char.ofNat (c.toNat + 32) else c

/-- Python `str.lower`: model of `.lower()` on the strings the code
lowercases (ascii-exact). -/
def lowerStr (s : String) : String := String.mk (s.data.map lowerChar)

/-! ### Word sets (lexicon_absa.py lines 25-27) -/

/-- The word "n't" built without a bare apostrophe literal. -/
def ntWord : String := String.mk ['n', '\'', 't']

def negations : List String := ["not", "no", "never", ntWord]

def intensifiers : List String :=
  ["very", "extremely", "really", "so", "super", "highly", "too"]

def softeners : List String :=
  ["slightly", "somewhat", "barely", "a bit", "kind of", "rather"]

/-- Values `self.emoji_map.values()`: the normalization target words. -/
def emojiWords : List String := emojiPairs.map (fun pw => String.mk pw.2)

/-! ### Parse-graph helpers -/

/-- spaCy `token.children` for the token at position `k`: the tokens whose
head is `k`, the token itself excluded (the root is its own head but not
its own child). -/
def childrenOf (doc : Doc) (k : Nat) : List Token :=
  doc.tokens.filter (fun c => c.head == k && c.i != k)

/-- spaCy `token.head`; total via a fallback to the token itself, which is
exactly spaCy's behavior for the root and never otherwise relevant in a
well-formed parse. -/
def headTok (doc : Doc) (t : Token) : Token :=
  (doc.tokens[t.head]?).getD t

def nounish (p : String) : Bool := p == "NOUN" || p == "PROPN"

/-- Does the head-chain from `t` reach position `oi` within `fuel` steps?
(`t` counts as reaching itself.) -/
def chainReach (doc : Doc) (oi : Nat) : Nat → Token → Bool
  | 0, t => t.i == oi
  | fuel + 1, t =>
    t.i == oi ||
      (if t.head == t.i then false
       else
         match doc.tokens[t.head]? with
         | some h => chainReach doc oi fuel h
         | none => false)

/-- spaCy `token.subtree`: the token and all its syntactic descendants, in
document order. A descendant's head-chain reaches the token in at most
`|tokens|` steps in any well-formed parse. -/
def subtreeOf (doc : Doc) (o : Token) : List Token :=
  doc.tokens.filter (chainReach doc o.i doc.tokens.length)

/-- Line 81: `" ".join(t.text for t in opinion.subtree)`. -/
def fragmentOf (doc : Doc) (o : Token) : String :=
  String.intercalate " " ((subtreeOf doc o).map (fun t => t.text))

/-! ### STEP 1 — aspect extraction via noun chunks (lines 50-53) -/

/-- List `aspects`: noun chunks none of whose tokens, lowercased, is a
normalization target word. (`analyze` uses this list only for its debug
print.) -/
def aspectsOf (doc : Doc) : List Chunk :=
  doc.chunks.filter (fun ch => ! ch.toks.any (fun w => emojiWords.contains (lowerStr w.text)))

/-! ### STEP 2 — the pair matcher (lines 61-74) -/

/-- The `if`/`elif`/`elif` chain of the matcher, for one token. -/
def perTokenPairs (doc : Doc) (t : Token) : List (Token × Token) :=
  if t.dep == "amod" && nounish (headTok doc t).pos then
    [(headTok doc t, t)]
  else if t.dep == "acomp" && ((headTok doc t).pos == "VERB" || (headTok doc t).pos == "AUX") then
    ((childrenOf doc t.head).filter
        (fun s => s.dep == "nsubj" || s.dep == "nsubjpass")).map (fun s => (s, t))
  else if t.pos == "VERB" then
    ((childrenOf doc t.i).filter
        (fun s => (s.dep == "nsubj" || s.dep == "nsubjpass") && nounish s.pos)).map
      (fun s => (s, t))
  else []

def pairsOf (doc : Doc) : List (Token × Token) :=
  (doc.tokens.map (perTokenPairs doc)).flatten

/-! ### Modifier scanner, negation detector, sentiment scorer (lines 80-113) -/

/-- Distance `abs(t.i - opinion.i)` on natural positions. -/
def natDist (a b : Nat) : Nat := max a b - min a b

/-- Line 86: `modifiers = [t for t in doc if t.pos_ == "ADV" and abs(t.i - opinion.i) <= 3]`. -/
def modifiersOf (doc : Doc) (o : Token) : List Token :=
  doc.tokens.filter (fun t => t.pos == "ADV" && decide (natDist t.i o.i ≤ 3))

/-- The intensifier/softener loop (lines 87-96): left-to-right over the
modifier list, `*= 1.2` for intensifiers, `*= 0.8` for softeners. -/
def applyModifiers (vs0 : ℚ) (mods : List Token) : ℚ :=
  mods.foldl
    (fun v adv =>
      if intensifiers.contains (lowerStr adv.text) then v * (6 / 5)
      else if softeners.contains (lowerStr adv.text) then v * (4 / 5)
      else v)
    vs0

/-- First branch of `_has_negation` (line 147): a direct child of the token
has dependency label `"neg"`. -/
def negChildB (doc : Doc) (t : Token) : Bool :=
  (childrenOf doc t.i).any (fun c => c.dep == "neg")

/-- Second branch (line 149): a direct child of the token's head has
dependency label `"neg"`. (The guard `token.head is not None` is always
true for spaCy tokens.) -/
def negHeadChildB (doc : Doc) (t : Token) : Bool :=
  (childrenOf doc t.head).any (fun c => c.dep == "neg")

/-- Third branch (line 151): `token.i > 0 and token.doc[token.i - 1].lower_
in self.negations`. -/
def negPrevB (doc : Doc) (t : Token) : Bool :=
  decide (0 < t.i) &&
    (match doc.tokens[t.i - 1]? with
     | some p => negations.contains p.lower
     | none => false)

/-- Method `LexiconABSA._has_negation` (lines 145-153); `utils.has_negation` with
the default word set is the same function. -/
def hasNegation (doc : Doc) (t : Token) : Bool :=
  negChildB doc t || negHeadChildB doc t || negPrevB doc t

/-- Lines 99-100: `if self._has_negation(opinion): vs = -vs`. -/
def negStage (doc : Doc) (o : Token) (v : ℚ) : ℚ :=
  if hasNegation doc o then -v else v

/-- Line 104: `vs = max(min(vs, 1.0), -1.0)`. -/
def clampQ (v : ℚ) : ℚ := max (min v 1) (-1)

/-- Lines 105-110: classification thresholds. -/
def labelOf (v : ℚ) : String :=
  if v > 3 / 10 then "positive" else if v < -(3 / 10) then "negative" else "neutral"

/-- Lines 84-113 for one (aspect, opinion) pair, given the scorer's
breakdown for the opinion fragment. The aspect in a pair is always a
`Token`, so the `hasattr(aspect, "start_char")` branch (for `Span`
aspects) is dead and the `Token` branch
`(aspect.idx, aspect.idx + len(aspect.text))` is the span. -/
def mkRecord (doc : Doc) (a o : Token) (br : Breakdown) : AspectSentiment :=
  let vs1 := applyModifiers br.compound (modifiersOf doc o)
  let vs := clampQ (negStage doc o vs1)
  { aspect := a.text
    sentiment := labelOf vs
    confidence := min 1 (|vs| + (1 / 10) * ((modifiersOf doc o).length : ℚ))
    text_span := (a.idx, a.idx + a.text.length)
    vader_breakdown := br }

def scorePair (doc : Doc) (scorer : String → Breakdown) (a o : Token) : AspectSentiment :=
  mkRecord doc a o (scorer (fragmentOf doc o))

/-- Line 104's `vs` for the pair with opinion `o`: the final
(post-modifier, post-negation, clamped) score from which the record's
sentiment and confidence are computed. -/
def finalScoreOf (doc : Doc) (scorer : String → Breakdown) (o : Token) : ℚ :=
  clampQ (negStage doc o
    (applyModifiers (scorer (fragmentOf doc o)).compound (modifiersOf doc o)))

/-! ### STEP 4 — aggregation (lines 155-162, utils.py lines 21-31) -/

def keyOf (r : AspectSentiment) : String := lowerStr r.aspect

def lookupKey (k : String) : List (String × AspectSentiment) → Option AspectSentiment
  | [] => none
  | kv :: t => if kv.1 = k then some kv.2 else lookupKey k t

def updateAssoc : List (String × AspectSentiment) → String → AspectSentiment →
    List (String × AspectSentiment)
  | [], _, _ => []
  | kv :: t, k, v => if kv.1 = k then (kv.1, v) :: t else kv :: updateAssoc t k v

/-- One iteration of the merge loop: `if key not in merged or r.confidence >
merged[key].confidence: merged[key] = r`. A Python dict keeps a key's
position on update and appends new keys, exactly this association-list
update. -/
def insertRec (m : List (String × AspectSentiment)) (r : AspectSentiment) :
    List (String × AspectSentiment) :=
  match lookupKey (keyOf r) m with
  | none => m ++ [(keyOf r, r)]
  | some cur => if r.confidence > cur.confidence then updateAssoc m (keyOf r) r else m

/-- Method `_aggregate_results`: fold the merge loop, then `list(merged.values())`. -/
def aggregate (results : List AspectSentiment) : List AspectSentiment :=
  (results.foldl insertRec []).map (fun kv => kv.2)

/-! ### `analyze` (lines 41-140), for an already parsed document -/

/-- Method `LexiconABSA.analyze` after parsing: STEP 2 pairs, STEP 3 scoring,
STEP 4 aggregation. (STEP 1's `aspects` list — `aspectsOf` — feeds only
the debug print and not the returned value.) -/
def analyze (doc : Doc) (scorer : String → Breakdown) : List AspectSentiment :=
  aggregate ((pairsOf doc).map (fun p => scorePair doc scorer p.1 p.2))

/-- Variant of `analyze` with a scorer that may raise: the loop body calls
`self.vader.polarity_scores(opinion_phrase)` with no `try`/`except`
around it (lines 80-83), so a raised exception propagates out of
`analyze`; in the `Except` embedding the first failing pair aborts the
whole call. -/
def scoreAllE (doc : Doc) (scorer : String → Except String Breakdown) :
    List (Token × Token) → Except String (List AspectSentiment)
  | [] => Except.ok []
  | p :: ps =>
    match scorer (fragmentOf doc p.2) with
    | Except.error e => Except.error e
    | Except.ok br =>
      match scoreAllE doc scorer ps with
      | Except.error e => Except.error e
      | Except.ok rest => Except.ok (mkRecord doc p.1 p.2 br :: rest)

def analyzeE (doc : Doc) (scorer : String → Except String Breakdown) :
    Except String (List AspectSentiment) :=
  match scoreAllE doc scorer (pairsOf doc) with
  | Except.error e => Except.error e
  | Except.ok results => Except.ok (aggregate results)

/-! ### Spec-side definitions

For the refinement claims, a second set of definitions follows the words
of the specification rather than the code; the claim theorems compare
the two. -/

/-- The claim's modifier window: every ADV token within document distance
3 of the opinion, in left-to-right document order. -/
def specAdvWindow (doc : Doc) (o : Token) : List Token :=
  doc.tokens.filter (fun t => t.pos == "ADV" && decide (natDist t.i o.i ≤ 3))

/-- The claim's final-score formula: the scorer's compound for the
opinion's subtree text; multiply by 1.2 for each intensifier among the
window in order and by 0.8 for each softener; flip the sign if the
opinion is negated; then clamp to [-1, 1]. -/
def specScore (doc : Doc) (scorer : String → Breakdown) (o : Token) : ℚ :=
  min 1 (max (-1)
    (if hasNegation doc o then
      -((specAdvWindow doc o).foldl
        (fun v adv =>
          if intensifiers.contains (lowerStr adv.text) then v * (12 / 10)
          else if softeners.contains (lowerStr adv.text) then v * (8 / 10)
          else v) (scorer (fragmentOf doc o)).compound)
    else
      (specAdvWindow doc o).foldl
        (fun v adv =>
          if intensifiers.contains (lowerStr adv.text) then v * (12 / 10)
          else if softeners.contains (lowerStr adv.text) then v * (8 / 10)
          else v) (scorer (fragmentOf doc o)).compound))

/-- The claim's confidence formula:
`min(1.0, |clamped score| + 0.1 × number of ADV tokens in the window)`. -/
def specConfidence (doc : Doc) (scorer : String → Breakdown) (o : Token) : ℚ :=
  min 1 (|specScore doc scorer o| + (1 / 10) * ((specAdvWindow doc o).length : ℚ))

/-- The claim's tie-breaking maximum: fold keeps the current best on ties,
so the earliest record of maximal confidence wins. -/
def bestOf (r : AspectSentiment) (l : List AspectSentiment) : AspectSentiment :=
  l.foldl (fun b x => if x.confidence > b.confidence then x else b) r

/-- All records of a group: those whose lowercased aspect text is `k`. -/
def groupFor (rs : List AspectSentiment) (k : String) : List AspectSentiment :=
  rs.filter (fun r => keyOf r == k)

/-- The record the claim says aggregation keeps for the group `k`. -/
def bestOfGroup (rs : List AspectSentiment) (k : String) : Option AspectSentiment :=
  match groupFor rs k with
  | [] => none
  | r :: t => some (bestOf r t)

/-! ### Concrete inputs for witnesses and counterexamples

Each mirrors a small parse that the external parser can produce; any
`Doc` is a legitimate input of the embedded core, which runs after the
parser. -/

/-- Parse of "love is great": `love/NOUN/nsubj`, `is/AUX/ROOT`,
`great/ADJ/acomp`, heads all at position 1; "love" is also a noun chunk. -/
def tLove : Token := ⟨"love", "love", "NOUN", "nsubj", 0, 0, 1⟩

def tIs : Token := ⟨"is", "is", "AUX", "ROOT", 1, 5, 1⟩

def tGreat : Token := ⟨"great", "great", "ADJ", "acomp", 2, 8, 1⟩

def exDoc1 : Doc := ⟨[tLove, tIs, tGreat], [⟨[tLove]⟩]⟩

def exScorer1 : String → Breakdown := fun _ => ⟨0, 0, 0, 4 / 5⟩

/-- A token on which the conditions of matcher rules 1 and 3 hold at once:
dependency label "amod", head a NOUN, own part-of-speech VERB, with a
NOUN `nsubj` child. -/
def tRun : Token := ⟨"running", "running", "VERB", "amod", 0, 0, 1⟩

def tShoes : Token := ⟨"shoes", "shoes", "NOUN", "ROOT", 1, 8, 1⟩

def tDog : Token := ⟨"dog", "dog", "NOUN", "nsubj", 2, 14, 0⟩

def exDoc2 : Doc := ⟨[tRun, tShoes, tDog], []⟩

/-- Parse of "good food". -/
def tGood : Token := ⟨"good", "good", "ADJ", "amod", 0, 0, 1⟩

def tFood : Token := ⟨"food", "food", "NOUN", "ROOT", 1, 5, 1⟩

def exDoc4 : Doc := ⟨[tGood, tFood], []⟩

def exScorer4 : String → Breakdown := fun _ => ⟨0, 0, 0, 7 / 10⟩

/-- The single record `analyze` emits on `exDoc4` with `exScorer4`. -/
def exRecord4 : AspectSentiment := ⟨"food", "positive", 7 / 10, (5, 9), ⟨0, 0, 0, 7 / 10⟩⟩

/-- Parse of "good food . bad service" (two amod pairs). -/
def tBad : Token := ⟨"bad", "bad", "ADJ", "amod", 2, 11, 3⟩

def tService : Token := ⟨"service", "service", "NOUN", "ROOT", 3, 15, 3⟩

def exDoc6 : Doc := ⟨[tGood, tFood, tBad, tService], []⟩

/-- A scorer that raises on the fragment "good" and succeeds elsewhere. -/
def exScorer6 : String → Except String Breakdown :=
  fun s => if s = "good" then Except.error "boom" else Except.ok ⟨0, 0, 0, 1 / 2⟩

/-- Parse of "not good": the opinion has a `neg` child and is also
immediately preceded by the literal word "not" — two negation cues. -/
def tNot : Token := ⟨"not", "not", "PART", "neg", 0, 0, 1⟩

def tGoodN : Token := ⟨"good", "good", "ADJ", "ROOT", 1, 4, 1⟩

def exDoc10 : Doc := ⟨[tNot, tGoodN], []⟩

/-- The spec's aggregation example: two "pizza" judgments, confidences
0.4 and 0.9. -/
def rPizzaLow : AspectSentiment := ⟨"pizza", "positive", 2 / 5, (0, 5), ⟨0, 0, 0, 2 / 5⟩⟩

def rPizzaHigh : AspectSentiment :=
  ⟨"pizza", "negative", 9 / 10, (10, 15), ⟨0, 0, 0, -(9 / 10)⟩⟩
lemma emojiPairs_good : ∀ pw ∈ emojiPairs, goodPair pw := by decide

lemma isPrefixOf_nil_eq_false {p : List Char} (h : p ≠ []) :
    p.isPrefixOf ([] : List Char) = false := by
  cases p with
  | nil => exact absurd rfl h
  | cons a as => rfl

lemma head_mem_of_isPrefixOf_cons {p : List Char} {c : Char} {t : List Char}
    (hp : p ≠ []) (h : p.isPrefixOf (c :: t) = true) :
    c ∈ p ∧ p.tail.isPrefixOf t = true := by
  cases p with
  | nil => exact absurd rfl hp
  | cons a as =>
    simp only [List.isPrefixOf, Bool.and_eq_true, beq_iff_eq] at h
    exact ⟨by simp [h.1], h.2⟩

lemma occursB_append_sep {q repl : List Char} (hq : q ≠ [])
    (hsep : ∀ c ∈ repl, c ∉ q) (R : List Char) :
    occursB q (repl ++ R) = occursB q R := by
  induction repl with
  | nil => rfl
  | cons x xs ih =>
    have hx : q.isPrefixOf (x :: (xs ++ R)) = false := by
      by_contra hcon
      have htrue : q.isPrefixOf (x :: (xs ++ R)) = true := by
        cases hb : q.isPrefixOf (x :: (xs ++ R)) with
        | false => exact absurd hb hcon
        | true => rfl
      have hmem := (head_mem_of_isPrefixOf_cons hq htrue).1
      exact hsep x (by simp) hmem
    have hxs : ∀ c ∈ xs, c ∉ q := fun c hc => hsep c (by simp [hc])
    have hunfold : occursB q ((x :: xs) ++ R)
        = (q.isPrefixOf (x :: (xs ++ R)) || occursB q (xs ++ R)) := rfl
    rw [hunfold, hx, Bool.false_or]
    exact ih hxs

lemma occursB_drop {q : List Char} (s : List Char)
    (h : occursB q s = false) : ∀ k, occursB q (s.drop k) = false := by
  induction s with
  | nil => intro k; simpa using h
  | cons c t ih =>
    intro k
    cases k with
    | zero => exact h
    | succ k' =>
      have ht : occursB q t = false := by
        simp only [occursB, Bool.or_eq_false_iff] at h
        exact h.2
      simpa using ih ht k'

lemma replaceAll_nil (pat repl : List Char) : replaceAll pat repl [] = [] := by
  rw [replaceAll]

lemma replaceAll_cons_pos {pat : List Char} (repl : List Char) {c : Char}
    {rest : List Char} (h : pat ≠ [] ∧ pat.isPrefixOf (c :: rest)) :
    replaceAll pat repl (c :: rest)
      = repl ++ replaceAll pat repl ((c :: rest).drop pat.length) := by
  rw [replaceAll]
  rw [dif_pos h]

lemma replaceAll_cons_neg {pat : List Char} (repl : List Char) {c : Char}
    {rest : List Char} (h : ¬ (pat ≠ [] ∧ pat.isPrefixOf (c :: rest))) :
    replaceAll pat repl (c :: rest) = c :: replaceAll pat repl rest := by
  rw [replaceAll]
  rw [dif_neg h]

/-- A prefix of the output of `replaceAll` whose characters are all drawn from
a set `P` disjoint from the replacement's characters is already a prefix of
the input: replacements cannot fabricate such a prefix. -/
lemma isPrefixOf_of_isPrefixOf_replaceAll {pat repl : List Char} {P : List Char}
    (hrepl : repl ≠ []) (hsep : ∀ c ∈ repl, c ∉ P) :
    ∀ (n : Nat) (t p' : List Char), t.length ≤ n → (∀ c ∈ p', c ∈ P) →
      p'.isPrefixOf (replaceAll pat repl t) = true → p'.isPrefixOf t = true := by
  intro n
  induction n with
  | zero =>
    intro t p' hlen hchars hpre
    have ht : t = [] := List.length_eq_zero.mp (Nat.le_zero.mp hlen)
    subst ht
    rw [replaceAll_nil] at hpre
    exact hpre
  | succ n ih =>
    intro t p' hlen hchars hpre
    cases t with
    | nil =>
      rw [replaceAll_nil] at hpre
      exact hpre
    | cons c rest =>
      have hlen' : rest.length ≤ n := by
        simp only [List.length_cons] at hlen; omega
      by_cases hcond : pat ≠ [] ∧ pat.isPrefixOf (c :: rest)
      · rw [replaceAll_cons_pos repl hcond] at hpre
        cases p' with
        | nil => rfl
        | cons a as =>
          cases repl with
          | nil => exact absurd rfl hrepl
          | cons r0 rs =>
            have hmem := (head_mem_of_isPrefixOf_cons (p := a :: as) (by simp) hpre).1
            have haP : r0 ∈ P := hchars r0 hmem
            exact absurd haP (hsep r0 (by simp))
      · rw [replaceAll_cons_neg repl hcond] at hpre
        cases p' with
        | nil => rfl
        | cons a as =>
          simp only [List.isPrefixOf, Bool.and_eq_true, beq_iff_eq] at hpre ⊢
          refine ⟨hpre.1, ?_⟩
          exact ih rest as hlen' (fun x hx => hchars x (by simp [hx])) hpre.2

/-- After `replaceAll pat repl s` no occurrence of `pat` remains, provided
`repl` shares no character with `pat`. -/
lemma occursB_replaceAll_self {pat repl : List Char}
    (hpat : pat ≠ []) (hrepl : repl ≠ []) (hsep : ∀ c ∈ repl, c ∉ pat) :
    ∀ (n : Nat) (s : List Char), s.length ≤ n →
      occursB pat (replaceAll pat repl s) = false := by
  intro n
  induction n with
  | zero =>
    intro s hlen
    have hs : s = [] := List.length_eq_zero.mp (Nat.le_zero.mp hlen)
    subst hs
    rw [replaceAll_nil]
    simpa [occursB] using isPrefixOf_nil_eq_false hpat
  | succ n ih =>
    intro s hlen
    cases s with
    | nil =>
      rw [replaceAll_nil]
      simpa [occursB] using isPrefixOf_nil_eq_false hpat
    | cons c rest =>
      have hlen' : rest.length ≤ n := by
        simp only [List.length_cons] at hlen; omega
      by_cases hcond : pat ≠ [] ∧ pat.isPrefixOf (c :: rest)
      · rw [replaceAll_cons_pos repl hcond]
        rw [occursB_append_sep hpat hsep]
        refine ih _ ?_
        have hp : 0 < pat.length := List.length_pos.mpr hpat
        simp only [List.length_drop, List.length_cons]
        simp only [List.length_cons] at hlen
        omega
      · rw [replaceAll_cons_neg repl hcond]
        have hrest : occursB pat (replaceAll pat repl rest) = false := ih rest hlen'
        have hnotpre : pat.isPrefixOf (c :: replaceAll pat repl rest) = false := by
          by_contra hcon
          have htrue : pat.isPrefixOf (c :: replaceAll pat repl rest) = true := by
            cases hb : pat.isPrefixOf (c :: replaceAll pat repl rest) with
            | false => exact absurd hb hcon
            | true => rfl
          cases pat with
          | nil => exact absurd rfl hpat
          | cons p0 ps =>
            simp only [List.isPrefixOf, Bool.and_eq_true, beq_iff_eq] at htrue
            have hps : ps.isPrefixOf rest = true :=
              isPrefixOf_of_isPrefixOf_replaceAll (P := p0 :: ps) hrepl hsep n rest ps
                hlen' (fun x hx => by simp [hx]) htrue.2
            have hfull : (p0 :: ps).isPrefixOf (c :: rest) = true := by
              simp only [List.isPrefixOf, Bool.and_eq_true, beq_iff_eq]
              exact ⟨htrue.1, hps⟩
            exact hcond ⟨by simp, hfull⟩
        show (pat.isPrefixOf (c :: replaceAll pat repl rest)
          || occursB pat (replaceAll pat repl rest)) = false
        rw [hnotpre, hrest]
        rfl

/-- `replaceAll pat repl` does not create occurrences of an unrelated pattern
`q` (one sharing no character with `repl`). -/
lemma occursB_replaceAll_preserve {pat repl q : List Char}
    (hpat : pat ≠ []) (hq : q ≠ []) (hrepl : repl ≠ [])
    (hsep : ∀ c ∈ repl, c ∉ q) :
    ∀ (n : Nat) (s : List Char), s.length ≤ n → occursB q s = false →
      occursB q (replaceAll pat repl s) = false := by
  intro n
  induction n with
  | zero =>
    intro s hlen hocc
    have hs : s = [] := List.length_eq_zero.mp (Nat.le_zero.mp hlen)
    subst hs
    rw [replaceAll_nil]
    exact hocc
  | succ n ih =>
    intro s hlen hocc
    cases s with
    | nil =>
      rw [replaceAll_nil]
      exact hocc
    | cons c rest =>
      have hlen' : rest.length ≤ n := by
        simp only [List.length_cons] at hlen; omega
      have hocc' : q.isPrefixOf (c :: rest) = false ∧ occursB q rest = false := by
        simpa only [occursB, Bool.or_eq_false_iff] using hocc
      by_cases hcond : pat ≠ [] ∧ pat.isPrefixOf (c :: rest)
      · rw [replaceAll_cons_pos repl hcond]
        rw [occursB_append_sep hq hsep]
        refine ih _ ?_ (occursB_drop _ hocc _)
        have hp : 0 < pat.length := List.length_pos.mpr hpat
        simp only [List.length_drop, List.length_cons]
        simp only [List.length_cons] at hlen
        omega
      · rw [replaceAll_cons_neg repl hcond]
        have hrest : occursB q (replaceAll pat repl rest) = false := ih rest hlen' hocc'.2
        have hnotpre : q.isPrefixOf (c :: replaceAll pat repl rest) = false := by
          by_contra hcon
          have htrue : q.isPrefixOf (c :: replaceAll pat repl rest) = true := by
            cases hb : q.isPrefixOf (c :: replaceAll pat repl rest) with
            | false => exact absurd hb hcon
            | true => rfl
          cases q with
          | nil => exact absurd rfl hq
          | cons q0 qs =>
            simp only [List.isPrefixOf, Bool.and_eq_true, beq_iff_eq] at htrue
            have hqs : qs.isPrefixOf rest = true :=
              isPrefixOf_of_isPrefixOf_replaceAll (P := q0 :: qs) hrepl hsep n rest qs
                hlen' (fun x hx => by simp [hx]) htrue.2
            have hfull : (q0 :: qs).isPrefixOf (c :: rest) = true := by
              simp only [List.isPrefixOf, Bool.and_eq_true, beq_iff_eq]
              exact ⟨htrue.1, hqs⟩
            rw [hfull] at hocc'
            exact Bool.true_eq_false.mp hocc'.1
        show (q.isPrefixOf (c :: replaceAll pat repl rest)
          || occursB q (replaceAll pat repl rest)) = false
        rw [hnotpre, hrest]
        rfl

/-- If `pat` does not occur in `s`, `replaceAll pat repl s` is the identity. -/
lemma replaceAll_of_not_occursB {pat repl : List Char} :
    ∀ s : List Char, occursB pat s = false → replaceAll pat repl s = s := by
  intro s
  induction s with
  | nil => intro _; exact replaceAll_nil pat repl
  | cons c rest ih =>
    intro hocc
    have hocc' : pat.isPrefixOf (c :: rest) = false ∧ occursB pat rest = false := by
      simpa only [occursB, Bool.or_eq_false_iff] using hocc
    have hcond : ¬ (pat ≠ [] ∧ pat.isPrefixOf (c :: rest)) := by
      intro hc
      rw [hc.2] at hocc'
      exact Bool.true_eq_false.mp hocc'.1
    rw [replaceAll_cons_neg repl hcond]
    rw [ih hocc'.2]

lemma padWord_ne_nil (w : List Char) : padWord w ≠ [] := by
  simp [padWord]

lemma padWord_wordChar {w : List Char} (hw : ∀ c ∈ w, wordChar c) :
    ∀ c ∈ padWord w, wordChar c := by
  intro c hc
  rcases List.mem_cons.mp hc with h | h
  · exact h ▸ Or.inl rfl
  · rcases List.mem_append.mp h with h2 | h2
    · exact hw c h2
    · have hsp : c = ' ' := by simpa using h2
      exact hsp ▸ Or.inl rfl

lemma padWord_sep {w q : List Char} (hw : ∀ c ∈ w, wordChar c)
    (hq : ∀ c ∈ q, ¬ wordChar c) : ∀ c ∈ padWord w, c ∉ q := by
  intro c hc hcq
  exact hq c hcq (padWord_wordChar hw c hc)

/-- Later normalization steps do not reintroduce a pattern made of
non-word characters. -/
lemma normAux_preserve {q : List Char} (hq : q ≠ [])
    (hqw : ∀ c ∈ q, ¬ wordChar c) :
    ∀ ps : List (List Char × List Char), (∀ pw ∈ ps, goodPair pw) →
      ∀ s : List Char, occursB q s = false → occursB q (normAux ps s) = false := by
  intro ps
  induction ps with
  | nil => intro _ s h; exact h
  | cons hd t ih =>
    intro hgood s h
    have hhd := hgood hd (by simp)
    have hstep : occursB q (normStep s hd) = false :=
      occursB_replaceAll_preserve hhd.1 hq (padWord_ne_nil hd.2)
        (padWord_sep hhd.2.2.2 hqw) s.length s (le_refl _) h
    exact ih (fun pw hpw => hgood pw (by simp [hpw])) (normStep s hd) hstep

/-- After running the whole normalization fold, none of the processed
patterns occurs in the result. -/
lemma normAux_kills :
    ∀ ps : List (List Char × List Char), (∀ pw ∈ ps, goodPair pw) →
      ∀ pw ∈ ps, ∀ s : List Char, occursB pw.1 (normAux ps s) = false := by
  intro ps
  induction ps with
  | nil => intro _ pw hpw; exact absurd hpw (by simp)
  | cons hd t ih =>
    intro hgood pw hpw s
    have hhd := hgood hd (by simp)
    have hgt : ∀ pw ∈ t, goodPair pw := fun pw hpw => hgood pw (by simp [hpw])
    rcases List.mem_cons.mp hpw with heq | hmem
    · subst heq
      have hstep : occursB pw.1 (normStep s pw) = false :=
        occursB_replaceAll_self hhd.1 (padWord_ne_nil pw.2)
          (padWord_sep hhd.2.2.2 hhd.2.2.1) s.length s (le_refl _)
      exact normAux_preserve hhd.1 hhd.2.2.1 t hgt (normStep s pw) hstep
    · exact ih hgt pw hmem (normStep s hd)

/-- If no pattern of `ps` occurs in `s`, the whole fold is the identity. -/
lemma normAux_of_not_occursB :
    ∀ ps : List (List Char × List Char), ∀ s : List Char,
      (∀ pw ∈ ps, occursB pw.1 s = false) → normAux ps s = s := by
  intro ps
  induction ps with
  | nil => intro s _; rfl
  | cons hd t ih =>
    intro s h
    have hstep : normStep s hd = s :=
      replaceAll_of_not_occursB s (h hd (by simp))
    show normAux t (normStep s hd) = s
    rw [hstep]
    exact ih s (fun pw hpw => h pw (by simp [hpw]))

/-! ## Claim theorems -/

/-- C8: emoji normalization — the replacement of every occurrence of each
glyph in the emoji table by its space-padded word — is idempotent:
`normalize (normalize t) = normalize t` for every input string; and
normalization is a total function, so it succeeds on every input,
including the empty string. -/
theorem c8_normalize_idempotent (s : List Char) :
    normalize (normalize s) = normalize s := by
  refine normAux_of_not_occursB emojiPairs (normalize s) ?_
  intro pw hpw
  exact normAux_kills emojiPairs emojiPairs_good pw hpw s

/-- C9: for an empty parse — no tokens and no noun chunks, which is what
the parser produces for empty or whitespace-only text — `analyze`
returns the empty sequence (and, being total, raises no error). -/
theorem c9_empty_parse (doc : Doc) (scorer : String → Breakdown)
    (htok : doc.tokens = []) (hch : doc.chunks = []) :
    analyze doc scorer = [] := by
  cases doc with
  | mk toks chs =>
    obtain rfl : toks = [] := htok
    obtain rfl : chs = [] := hch
    rfl

theorem c9_witness :
    analyze ⟨[], []⟩ (fun _ => ⟨0, 0, 0, 0⟩) = [] :=
  c9_empty_parse ⟨[], []⟩ (fun _ => ⟨0, 0, 0, 0⟩) rfl rfl

/-- C2 (amended): the three pairing rules are applied to each token as an
`if`/`elif` chain, so they are not independent: when the first rule's
condition holds on a token — dependency label "amod" with a NOUN/PROPN
head — only that rule's pair is emitted for this token, even if a later
rule's condition (such as the VERB rule's) also holds on it. (A token may
still appear in several pairs produced while scanning other tokens.) -/
theorem c2_first_matching_rule_only (doc : Doc) (t : Token)
    (h1 : t.dep = "amod") (h2 : nounish (headTok doc t).pos = true) :
    perTokenPairs doc t = [(headTok doc t, t)] := by
  simp [perTokenPairs, h1, h2]

theorem c2_witness :
    perTokenPairs exDoc2 tRun = [(headTok exDoc2 tRun, tRun)] :=
  c2_first_matching_rule_only exDoc2 tRun rfl (by decide)

/-- C2 is false as stated: on `exDoc2` the token "running" satisfies the
conditions of rule 1 (label "amod", NOUN head) and of rule 3 (a VERB with
a NOUN "nsubj" child) at once, yet the matcher emits only rule 1's pair;
rule 3's pair (dog, running) is not emitted. -/
theorem c2_counterexample :
    (tRun.dep = "amod" ∧ nounish (headTok exDoc2 tRun).pos = true) ∧
    (tRun.pos = "VERB" ∧ tDog ∈ childrenOf exDoc2 tRun.i ∧ tDog.dep = "nsubj" ∧
      nounish tDog.pos = true) ∧
    (tDog, tRun) ∉ pairsOf exDoc2 := by
  refine ⟨⟨rfl, by decide⟩, ⟨rfl, by decide, rfl, by decide⟩, ?_⟩
  decide

/-- C10: the negation adjustment is one boolean-guarded sign flip
(`if self._has_negation(opinion): vs = -vs`): when any number of cues
hold at once — here both a "neg" child and a literal preceding negation
word — the magnitude is unchanged and the sign is flipped exactly once;
cues never cancel each other. -/
theorem c10_single_sign_flip (doc : Doc) (o : Token) (v : ℚ)
    (ha : negChildB doc o = true) (hc : negPrevB doc o = true) :
    negStage doc o v = -v ∧ |negStage doc o v| = |v| := by
  have hn : hasNegation doc o = true := by simp [hasNegation, ha, hc]
  refine ⟨by simp [negStage, hn], ?_⟩
  simp [negStage, hn, abs_neg]

theorem c10_witness :
    negStage exDoc10 tGoodN ((1 : ℚ) / 2) = -(1 / 2) ∧
      |negStage exDoc10 tGoodN ((1 : ℚ) / 2)| = |(1 : ℚ) / 2| :=
  c10_single_sign_flip exDoc10 tGoodN (1 / 2) (by decide) (by decide)

lemma negChildB_iff (doc : Doc) (t : Token) :
    negChildB doc t = true ↔
      ∃ c ∈ doc.tokens, c.head = t.i ∧ c.i ≠ t.i ∧ c.dep = "neg" := by
  simp only [negChildB, childrenOf, List.any_eq_true, List.mem_filter,
    Bool.and_eq_true, beq_iff_eq, bne_iff_ne, ne_eq]
  tauto

lemma negHeadChildB_iff (doc : Doc) (t : Token) :
    negHeadChildB doc t = true ↔
      ∃ c ∈ doc.tokens, c.head = t.head ∧ c.i ≠ t.head ∧ c.dep = "neg" := by
  simp only [negHeadChildB, childrenOf, List.any_eq_true, List.mem_filter,
    Bool.and_eq_true, beq_iff_eq, bne_iff_ne, ne_eq]
  tauto

lemma negPrevB_iff (doc : Doc) (t : Token) :
    negPrevB doc t = true ↔
      0 < t.i ∧ ∃ p, doc.tokens[t.i - 1]? = some p ∧ p.lower ∈ negations := by
  unfold negPrevB
  cases hp : doc.tokens[t.i - 1]? with
  | none => simp
  | some p => simp

/-- C7: the negation detector returns true if and only if (a) some direct
child of the token has dependency label "neg", or (b) some direct child
of the token's head has dependency label "neg", or (c) the token has a
predecessor in surface order and the immediately preceding token's
lowercase form lies in the closed set {not, no, never, n't}. -/
theorem c7_has_negation_iff (doc : Doc) (t : Token) :
    hasNegation doc t = true ↔
      ((∃ c ∈ doc.tokens, c.head = t.i ∧ c.i ≠ t.i ∧ c.dep = "neg") ∨
       (∃ c ∈ doc.tokens, c.head = t.head ∧ c.i ≠ t.head ∧ c.dep = "neg") ∨
       (0 < t.i ∧ ∃ p, doc.tokens[t.i - 1]? = some p ∧ p.lower ∈ negations)) := by
  simp only [hasNegation, Bool.or_eq_true, negChildB_iff, negHeadChildB_iff,
    negPrevB_iff]
  exact or_assoc

lemma scorePair_sentiment (doc : Doc) (scorer : String → Breakdown) (a o : Token) :
    (scorePair doc scorer a o).sentiment
      = labelOf (clampQ (negStage doc o
          (applyModifiers (scorer (fragmentOf doc o)).compound (modifiersOf doc o)))) := rfl

lemma scorePair_confidence (doc : Doc) (scorer : String → Breakdown) (a o : Token) :
    (scorePair doc scorer a o).confidence
      = min 1 (|clampQ (negStage doc o
            (applyModifiers (scorer (fragmentOf doc o)).compound (modifiersOf doc o)))|
          + (1 / 10) * ((modifiersOf doc o).length : ℚ)) := rfl

lemma specFold_eq_applyModifiers (vs0 : ℚ) (l : List Token) :
    l.foldl
      (fun v adv =>
        if intensifiers.contains (lowerStr adv.text) then v * (12 / 10)
        else if softeners.contains (lowerStr adv.text) then v * (8 / 10)
        else v) vs0 = applyModifiers vs0 l := by
  have hfun : (fun (v : ℚ) (adv : Token) =>
        if intensifiers.contains (lowerStr adv.text) then v * (12 / 10)
        else if softeners.contains (lowerStr adv.text) then v * (8 / 10)
        else v)
      = (fun (v : ℚ) (adv : Token) =>
        if intensifiers.contains (lowerStr adv.text) then v * (6 / 5)
        else if softeners.contains (lowerStr adv.text) then v * (4 / 5)
        else v) := by
    funext v adv
    split_ifs <;> norm_num
  rw [hfun]
  rfl

lemma clampQ_eq_minmax (v : ℚ) : clampQ v = min 1 (max (-1) v) := by
  unfold clampQ
  rcases le_total v (-1) with h | h
  · rw [min_eq_left (by linarith : v ≤ (1 : ℚ)), max_eq_right h,
      max_eq_left h, min_eq_right (by norm_num : (-1 : ℚ) ≤ 1)]
  · rcases le_total v 1 with h2 | h2
    · rw [min_eq_left h2, max_eq_left h, max_eq_right h, min_eq_right h2]
    · rw [min_eq_right h2, max_eq_left (by norm_num : (-1 : ℚ) ≤ 1),
        max_eq_right (by linarith : (-1 : ℚ) ≤ v), min_eq_left h2]

lemma specScore_eq (doc : Doc) (scorer : String → Breakdown) (o : Token) :
    specScore doc scorer o
      = clampQ (negStage doc o
          (applyModifiers (scorer (fragmentOf doc o)).compound (modifiersOf doc o))) := by
  unfold specScore
  simp only [specFold_eq_applyModifiers]
  rw [← clampQ_eq_minmax]
  rfl

/-- C3: for each (aspect, opinion) pair, the emitted record is scored by
the claim's formula: the scorer's compound for the opinion subtree text,
multiplied by 1.2 per intensifier and 0.8 per softener among the ADV
tokens within document distance 3 (in left-to-right order), sign-flipped
if the opinion is negated, clamped to [-1, 1]; the sentiment is the
threshold label of that score, and the confidence is
`min(1, |clamped score| + 0.1 × number of ADV tokens in the window)`. -/
theorem c3_score_formula (doc : Doc) (scorer : String → Breakdown) (a o : Token) :
    (scorePair doc scorer a o).sentiment = labelOf (specScore doc scorer o) ∧
    (scorePair doc scorer a o).confidence = specConfidence doc scorer o := by
  constructor
  · rw [scorePair_sentiment, specScore_eq]
  · rw [scorePair_confidence]
    unfold specConfidence
    rw [specScore_eq]
    rfl

lemma mkRecord_no_mods_no_neg {doc : Doc} {a o : Token} (br : Breakdown)
    (hm : modifiersOf doc o = []) (hn : hasNegation doc o = false) :
    mkRecord doc a o br
      = ⟨a.text, labelOf (clampQ br.compound), min 1 |clampQ br.compound|,
         (a.idx, a.idx + a.text.length), br⟩ := by
  unfold mkRecord
  rw [hm]
  simp only [negStage, hn, Bool.false_eq_true, if_false, applyModifiers,
    List.foldl_nil, List.length_nil, AspectSentiment.mk.injEq]
  norm_num

lemma aggregate_singleton (r : AspectSentiment) : aggregate [r] = [r] := rfl

/-- C1 (amended): the rejection of aspect candidates containing
normalization target words applies to the STEP 1 noun-chunk candidate
list, which `analyze` uses only for its debug print: every retained
candidate is free of such words. The aspects of the emitted records come
from the STEP 2 dependency pairs, which the filter never touches, so an
emoji-derived word can still be the aspect of an emitted record. -/
theorem c1_candidate_filter (doc : Doc) (ch : Chunk) (hch : ch ∈ aspectsOf doc) :
    ∀ w ∈ ch.toks, lowerStr w.text ∉ emojiWords := by
  intro w hw
  have h2 := (List.mem_filter.mp hch).2
  simp at h2
  exact h2 w hw

theorem c1_witness :
    (⟨[tFood]⟩ : Chunk) ∈ aspectsOf ⟨[tGood, tFood], [⟨[tFood]⟩]⟩ ∧
      lowerStr tFood.text ∉ emojiWords :=
  ⟨by decide, c1_candidate_filter ⟨[tGood, tFood], [⟨[tFood]⟩]⟩ ⟨[tFood]⟩
    (by decide) tFood (by decide)⟩

/-- C1 is false as stated: on the parse of "love is great" — where "love"
is a noun chunk and also the nsubj paired with the opinion "great" —
`analyze` emits a record whose aspect is the emoji-derived word "love",
even though the candidate filter did reject the chunk. -/
theorem c1_counterexample :
    (∃ r ∈ analyze exDoc1 exScorer1, lowerStr r.aspect ∈ emojiWords) ∧
    aspectsOf exDoc1 = [] := by
  have hp : pairsOf exDoc1 = [(tLove, tGreat)] := by decide
  have hlist : analyze exDoc1 exScorer1
      = [scorePair exDoc1 exScorer1 tLove tGreat] := by
    show aggregate ((pairsOf exDoc1).map
      (fun p => scorePair exDoc1 exScorer1 p.1 p.2)) = _
    rw [hp, List.map_cons, List.map_nil]
    exact aggregate_singleton _
  refine ⟨?_, by decide⟩
  rw [hlist]
  refine ⟨scorePair exDoc1 exScorer1 tLove tGreat, List.mem_singleton.mpr rfl, ?_⟩
  have haspect : (scorePair exDoc1 exScorer1 tLove tGreat).aspect = "love" := rfl
  rw [haspect]
  decide

lemma scoreAllE_error (doc : Doc) (scorer : String → Except String Breakdown) :
    ∀ l : List (Token × Token),
      (∃ p ∈ l, ∃ e, scorer (fragmentOf doc p.2) = Except.error e) →
      ∃ e, scoreAllE doc scorer l = Except.error e := by
  intro l
  induction l with
  | nil =>
    rintro ⟨p, hp, _⟩
    exact absurd hp (by simp)
  | cons q qs ih =>
    rintro ⟨p, hp, e, he⟩
    rcases List.mem_cons.mp hp with rfl | hmem
    · exact ⟨e, by simp only [scoreAllE]; rw [he]⟩
    · cases hs : scorer (fragmentOf doc q.2) with
      | error e2 => exact ⟨e2, by simp only [scoreAllE]; rw [hs]⟩
      | ok br =>
        obtain ⟨e3, h3⟩ := ih ⟨p, hmem, e, he⟩
        exact ⟨e3, by simp only [scoreAllE]; rw [hs, h3]⟩

/-- C6 (amended): there is no per-pair handling of scorer failures — the
loop body calls the scorer with no `try`/`except` — so if the scorer
fails on the opinion fragment of any pair, the whole `analyze` call
fails, and the records of all other pairs are lost with it. -/
theorem c6_scorer_failure_aborts_analyze (doc : Doc)
    (scorer : String → Except String Breakdown)
    (h : ∃ p ∈ pairsOf doc, ∃ e, scorer (fragmentOf doc p.2) = Except.error e) :
    ∃ e, analyzeE doc scorer = Except.error e := by
  obtain ⟨e, he⟩ := scoreAllE_error doc scorer (pairsOf doc) h
  exact ⟨e, by unfold analyzeE; rw [he]⟩

theorem c6_witness : ∃ e, analyzeE exDoc6 exScorer6 = Except.error e :=
  c6_scorer_failure_aborts_analyze exDoc6 exScorer6
    ⟨(tFood, tGood), by decide, "boom", rfl⟩

/-- C6 is false as stated: on `exDoc6` (two pairs) the scorer fails only
on the first pair's fragment "good" and succeeds on the second pair's
fragment "bad", yet `analyze` returns the propagated error and emits no
record at all — the healthy (service, bad) pair is not emitted. -/
theorem c6_counterexample :
    analyzeE exDoc6 exScorer6 = Except.error "boom" ∧
    (tService, tBad) ∈ pairsOf exDoc6 ∧
    exScorer6 (fragmentOf exDoc6 tBad) = Except.ok ⟨0, 0, 0, 1 / 2⟩ :=
  ⟨rfl, by decide, rfl⟩

lemma mem_updateAssoc_snd {k : String} {v : AspectSentiment} :
    ∀ (m : List (String × AspectSentiment)), ∀ kv ∈ updateAssoc m k v,
      kv.2 ∈ m.map (fun x => x.2) ∨ kv.2 = v := by
  intro m
  induction m with
  | nil => intro kv hkv; exact absurd hkv (by simp [updateAssoc])
  | cons kv0 t ih =>
    intro kv hkv
    unfold updateAssoc at hkv
    by_cases h0 : kv0.1 = k
    · rw [if_pos h0] at hkv
      rcases List.mem_cons.mp hkv with rfl | hmem
      · exact Or.inr rfl
      · refine Or.inl ?_
        rw [List.map_cons]
        exact List.mem_cons_of_mem _ (List.mem_map_of_mem _ hmem)
    · rw [if_neg h0] at hkv
      rcases List.mem_cons.mp hkv with rfl | hmem
      · refine Or.inl ?_
        rw [List.map_cons]
        exact List.mem_cons_self _ _
      · rcases ih kv hmem with h1 | h1
        · refine Or.inl ?_
          rw [List.map_cons]
          exact List.mem_cons_of_mem _ h1
        · exact Or.inr h1

lemma insertRec_lookup_none {m : List (String × AspectSentiment)}
    {r : AspectSentiment} (h : lookupKey (keyOf r) m = none) :
    insertRec m r = m ++ [(keyOf r, r)] := by
  unfold insertRec
  rw [h]

lemma insertRec_lookup_gt {m : List (String × AspectSentiment)}
    {r cur : AspectSentiment} (h : lookupKey (keyOf r) m = some cur)
    (hc : r.confidence > cur.confidence) :
    insertRec m r = updateAssoc m (keyOf r) r := by
  unfold insertRec
  rw [h]
  show (if r.confidence > cur.confidence then updateAssoc m (keyOf r) r else m) = _
  rw [if_pos hc]

lemma insertRec_lookup_le {m : List (String × AspectSentiment)}
    {r cur : AspectSentiment} (h : lookupKey (keyOf r) m = some cur)
    (hc : ¬ r.confidence > cur.confidence) :
    insertRec m r = m := by
  unfold insertRec
  rw [h]
  show (if r.confidence > cur.confidence then updateAssoc m (keyOf r) r else m) = _
  rw [if_neg hc]

lemma insertRec_snd_mem {m : List (String × AspectSentiment)} {r : AspectSentiment} :
    ∀ kv ∈ insertRec m r, kv.2 ∈ m.map (fun x => x.2) ∨ kv.2 = r := by
  intro kv hkv
  cases h : lookupKey (keyOf r) m with
  | none =>
    rw [insertRec_lookup_none h] at hkv
    rcases List.mem_append.mp hkv with h1 | h1
    · exact Or.inl (List.mem_map_of_mem _ h1)
    · right
      have hkv' : kv = (keyOf r, r) := by simpa using h1
      rw [hkv']
  | some cur =>
    by_cases hc : r.confidence > cur.confidence
    · rw [insertRec_lookup_gt h hc] at hkv
      exact mem_updateAssoc_snd m kv hkv
    · rw [insertRec_lookup_le h hc] at hkv
      exact Or.inl (List.mem_map_of_mem _ hkv)

lemma foldl_insertRec_snd :
    ∀ (rs : List AspectSentiment) (m : List (String × AspectSentiment)),
      ∀ kv ∈ rs.foldl insertRec m, kv.2 ∈ m.map (fun x => x.2) ∨ kv.2 ∈ rs := by
  intro rs
  induction rs with
  | nil =>
    intro m kv hkv
    exact Or.inl (List.mem_map_of_mem _ hkv)
  | cons r rest ih =>
    intro m kv hkv
    rcases ih (insertRec m r) kv hkv with hin | hin
    · obtain ⟨kv', hkv', hsnd⟩ := List.mem_map.mp hin
      rcases insertRec_snd_mem kv' hkv' with h1 | h1
      · exact Or.inl (by rw [← hsnd]; exact h1)
      · exact Or.inr (by rw [← hsnd, h1]; simp)
    · exact Or.inr (by simp [hin])

/-- Every record surviving aggregation was among the input records. -/
lemma mem_of_mem_aggregate {rs : List AspectSentiment} {r : AspectSentiment}
    (h : r ∈ aggregate rs) : r ∈ rs := by
  unfold aggregate at h
  obtain ⟨kv, hkv, rfl⟩ := List.mem_map.mp h
  rcases foldl_insertRec_snd rs [] kv hkv with h1 | h1
  · simp at h1
  · exact h1

lemma clampQ_bounds (v : ℚ) : -1 ≤ clampQ v ∧ clampQ v ≤ 1 := by
  unfold clampQ
  refine ⟨le_max_right _ _, max_le (min_le_right _ _) (by norm_num)⟩

lemma labelOf_positive_iff (v : ℚ) : labelOf v = "positive" ↔ v > 3 / 10 := by
  unfold labelOf
  split_ifs with h1 h2
  · exact iff_of_true rfl h1
  · exact iff_of_false (by decide) h1
  · exact iff_of_false (by decide) h1

lemma labelOf_negative_iff (v : ℚ) : labelOf v = "negative" ↔ v < -(3 / 10) := by
  unfold labelOf
  split_ifs with h1 h2
  · exact iff_of_false (by decide) (by intro hc; linarith)
  · exact iff_of_true rfl h2
  · exact iff_of_false (by decide) h2

lemma labelOf_neutral_iff (v : ℚ) :
    labelOf v = "neutral" ↔ -(3 / 10) ≤ v ∧ v ≤ 3 / 10 := by
  unfold labelOf
  split_ifs with h1 h2
  · exact iff_of_false (by decide) (fun hc => absurd hc.2 (not_le.mpr h1))
  · exact iff_of_false (by decide) (fun hc => absurd hc.1 (not_le.mpr h2))
  · exact iff_of_true rfl ⟨not_lt.mp h2, not_lt.mp h1⟩

/-- C4: every emitted record comes from a pair of the matcher, its
sentiment label is the pure threshold function of that pair's actual
final clamped score `finalScoreOf` — "positive" iff the score exceeds
0.3, "negative" iff it is below -0.3, "neutral" otherwise — and the
confidence always lies in [0, 1]. -/
theorem c4_label_confidence_invariant (doc : Doc) (scorer : String → Breakdown)
    (r : AspectSentiment) (hr : r ∈ analyze doc scorer) :
    (∃ p ∈ pairsOf doc, r = scorePair doc scorer p.1 p.2 ∧
      r.sentiment = labelOf (finalScoreOf doc scorer p.2) ∧
      -1 ≤ finalScoreOf doc scorer p.2 ∧ finalScoreOf doc scorer p.2 ≤ 1 ∧
      (r.sentiment = "positive" ↔ finalScoreOf doc scorer p.2 > 3 / 10) ∧
      (r.sentiment = "negative" ↔ finalScoreOf doc scorer p.2 < -(3 / 10)) ∧
      (r.sentiment = "neutral" ↔
        -(3 / 10) ≤ finalScoreOf doc scorer p.2 ∧
          finalScoreOf doc scorer p.2 ≤ 3 / 10)) ∧
    0 ≤ r.confidence ∧ r.confidence ≤ 1 := by
  have hmem : r ∈ (pairsOf doc).map (fun p => scorePair doc scorer p.1 p.2) :=
    mem_of_mem_aggregate hr
  obtain ⟨p, hp, rfl⟩ := List.mem_map.mp hmem
  refine ⟨⟨p, hp, rfl, rfl,
    (clampQ_bounds _).1, (clampQ_bounds _).2,
    labelOf_positive_iff _, labelOf_negative_iff _, labelOf_neutral_iff _⟩, ?_, ?_⟩
  · show (0 : ℚ) ≤ min 1 (|clampQ (negStage doc p.2 (applyModifiers
      (scorer (fragmentOf doc p.2)).compound (modifiersOf doc p.2)))|
        + (1 / 10) * ((modifiersOf doc p.2).length : ℚ))
    apply le_min
    · norm_num
    · positivity
  · show min 1 (|clampQ (negStage doc p.2 (applyModifiers
      (scorer (fragmentOf doc p.2)).compound (modifiersOf doc p.2)))|
        + (1 / 10) * ((modifiersOf doc p.2).length : ℚ)) ≤ 1
    exact min_le_left _ _

theorem c4_witness :
    0 ≤ (scorePair exDoc4 exScorer4 tFood tGood).confidence ∧
      (scorePair exDoc4 exScorer4 tFood tGood).confidence ≤ 1 :=
  (c4_label_confidence_invariant exDoc4 exScorer4
    (scorePair exDoc4 exScorer4 tFood tGood)
    (by
      have hp : pairsOf exDoc4 = [(tFood, tGood)] := by decide
      show _ ∈ aggregate ((pairsOf exDoc4).map
        (fun p => scorePair exDoc4 exScorer4 p.1 p.2))
      rw [hp, List.map_cons, List.map_nil, aggregate_singleton]
      exact List.mem_singleton.mpr rfl)).2

lemma lookupKey_eq_none_iff (k : String) (m : List (String × AspectSentiment)) :
    lookupKey k m = none ↔ k ∉ m.map Prod.fst := by
  induction m with
  | nil => simp [lookupKey]
  | cons kv t ih =>
    by_cases h : kv.1 = k
    · simp [lookupKey, h]
    · simp [lookupKey, h, ih, Ne.symm h]

lemma lookupKey_some_mem (k : String) (m : List (String × AspectSentiment))
    {v : AspectSentiment} (h : lookupKey k m = some v) : (k, v) ∈ m := by
  induction m with
  | nil => simp [lookupKey] at h
  | cons kv t ih =>
    unfold lookupKey at h
    by_cases h0 : kv.1 = k
    · rw [if_pos h0] at h
      obtain rfl : kv.2 = v := Option.some.inj h
      rw [← h0]
      exact List.mem_cons_self _ _
    · rw [if_neg h0] at h
      exact List.mem_cons_of_mem _ (ih h)

lemma updateAssoc_map_fst (m : List (String × AspectSentiment)) (k : String)
    (v : AspectSentiment) : (updateAssoc m k v).map Prod.fst = m.map Prod.fst := by
  induction m with
  | nil => rfl
  | cons kv t ih =>
    unfold updateAssoc
    by_cases h0 : kv.1 = k
    · rw [if_pos h0]; simp
    · rw [if_neg h0]; simp [ih]

lemma mem_updateAssoc_cases {m : List (String × AspectSentiment)}
    (hnd : (m.map Prod.fst).Nodup) {k : String} {v : AspectSentiment} :
    ∀ kv ∈ updateAssoc m k v, (kv ∈ m ∧ kv.1 ≠ k) ∨ kv = (k, v) := by
  induction m with
  | nil => intro kv hkv; exact absurd hkv (by simp [updateAssoc])
  | cons kv0 t ih =>
    obtain ⟨hnotin, hndt⟩ := List.nodup_cons.mp
      (show (kv0.1 :: t.map Prod.fst).Nodup by rw [List.map_cons] at hnd; exact hnd)
    intro kv hkv
    unfold updateAssoc at hkv
    by_cases h0 : kv0.1 = k
    · rw [if_pos h0] at hkv
      rcases List.mem_cons.mp hkv with rfl | hmem
      · right; rw [h0]
      · left
        refine ⟨List.mem_cons_of_mem _ hmem, fun hc => ?_⟩
        apply hnotin
        rw [h0, ← hc]
        exact List.mem_map_of_mem _ hmem
    · rw [if_neg h0] at hkv
      rcases List.mem_cons.mp hkv with rfl | hmem
      · exact Or.inl ⟨List.mem_cons_self _ _, h0⟩
      · rcases ih hndt kv hmem with ⟨hm, hne⟩ | rfl
        · exact Or.inl ⟨List.mem_cons_of_mem _ hm, hne⟩
        · exact Or.inr rfl

lemma nodup_key_unique {m : List (String × AspectSentiment)}
    (hnd : (m.map Prod.fst).Nodup) {k : String} {a b : AspectSentiment}
    (ha : (k, a) ∈ m) (hb : (k, b) ∈ m) : a = b := by
  induction m with
  | nil => exact absurd ha (by simp)
  | cons kv t ih =>
    obtain ⟨hnotin, hndt⟩ := List.nodup_cons.mp
      (show (kv.1 :: t.map Prod.fst).Nodup by rw [List.map_cons] at hnd; exact hnd)
    rcases List.mem_cons.mp ha with ha1 | ha1 <;> rcases List.mem_cons.mp hb with hb1 | hb1
    · have h := ha1.trans hb1.symm
      exact ((Prod.mk.injEq _ _ _ _).mp h).2
    · exfalso
      apply hnotin
      have hk : kv.1 = k := by rw [← ha1]
      rw [hk]
      exact List.mem_map_of_mem _ hb1
    · exfalso
      apply hnotin
      have hk : kv.1 = k := by rw [← hb1]
      rw [hk]
      exact List.mem_map_of_mem _ ha1
    · exact ih hndt ha1 hb1

lemma groupFor_append_sing (rs : List AspectSentiment) (r : AspectSentiment)
    (k : String) :
    groupFor (rs ++ [r]) k
      = groupFor rs k ++ if keyOf r == k then [r] else [] := by
  unfold groupFor
  rw [List.filter_append]
  congr 1
  rw [List.filter_cons]
  cases hp : (keyOf r == k) <;> simp [hp]

lemma groupFor_eq_nil_of_not_mem {rs : List AspectSentiment} {k : String}
    (h : k ∉ rs.map keyOf) : groupFor rs k = [] := by
  unfold groupFor
  refine List.filter_eq_nil_iff.mpr ?_
  intro a ha
  simp only [beq_iff_eq]
  intro hk
  exact h (hk ▸ List.mem_map_of_mem keyOf ha)

lemma bestOf_append_sing (r0 : AspectSentiment) (t : List AspectSentiment)
    (x : AspectSentiment) :
    bestOf r0 (t ++ [x])
      = if x.confidence > (bestOf r0 t).confidence then x else bestOf r0 t := by
  unfold bestOf
  rw [List.foldl_append]
  rfl

lemma bestOfGroup_append_ne {rs : List AspectSentiment} {r : AspectSentiment}
    {k : String} (hne : keyOf r ≠ k) :
    bestOfGroup (rs ++ [r]) k = bestOfGroup rs k := by
  unfold bestOfGroup
  rw [groupFor_append_sing, if_neg (by simp [hne]), List.append_nil]

lemma bestOfGroup_append_self_nil {rs : List AspectSentiment} {r : AspectSentiment}
    {k : String} (hk : keyOf r = k) (hg : groupFor rs k = []) :
    bestOfGroup (rs ++ [r]) k = some r := by
  unfold bestOfGroup
  rw [groupFor_append_sing, hg, if_pos (by simp [hk])]
  rfl

lemma bestOfGroup_append_self_cons {rs : List AspectSentiment} {r : AspectSentiment}
    {k : String} {g0 : AspectSentiment} {gt : List AspectSentiment}
    (hk : keyOf r = k) (hg : groupFor rs k = g0 :: gt) :
    bestOfGroup (rs ++ [r]) k
      = some (if r.confidence > (bestOf g0 gt).confidence then r
              else bestOf g0 gt) := by
  unfold bestOfGroup
  rw [groupFor_append_sing, hg, if_pos (by simp [hk])]
  show some (bestOf g0 (gt ++ [r])) = _
  rw [bestOf_append_sing]

lemma bestOfGroup_eq_some {rs : List AspectSentiment} {k : String}
    {v : AspectSentiment} (h : bestOfGroup rs k = some v) :
    ∃ g0 gt, groupFor rs k = g0 :: gt ∧ bestOf g0 gt = v := by
  unfold bestOfGroup at h
  cases hg : groupFor rs k with
  | nil =>
    rw [hg] at h
    exact Option.noConfusion h
  | cons g0 gt =>
    rw [hg] at h
    exact ⟨g0, gt, rfl, Option.some.inj h⟩

/-- Invariant of the merge loop: after processing the records `processed`,
the association list `m` has duplicate-free keys, its keys are exactly
the lowercased aspects seen so far, and each entry holds the earliest
maximal-confidence record of its group. -/
def AggInv (processed : List AspectSentiment)
    (m : List (String × AspectSentiment)) : Prop :=
  (m.map Prod.fst).Nodup ∧
  (∀ k, k ∈ m.map Prod.fst ↔ k ∈ processed.map keyOf) ∧
  (∀ kv ∈ m, kv.1 = keyOf kv.2 ∧ bestOfGroup processed kv.1 = some kv.2)

lemma aggInv_nil : AggInv [] [] := ⟨by simp, by simp, by simp⟩

lemma aggInv_step {processed : List AspectSentiment}
    {m : List (String × AspectSentiment)} (h : AggInv processed m)
    (r : AspectSentiment) : AggInv (processed ++ [r]) (insertRec m r) := by
  obtain ⟨hnd, hkeys, hbest⟩ := h
  have hkeysnew : ∀ k, (k ∈ processed.map keyOf ∨ k = keyOf r)
      ↔ k ∈ (processed ++ [r]).map keyOf := by
    intro k
    rw [List.map_append, List.mem_append]
    simp
  cases hlk : lookupKey (keyOf r) m with
  | none =>
    have hknotin : keyOf r ∉ m.map Prod.fst := (lookupKey_eq_none_iff _ _).mp hlk
    have hknotproc : keyOf r ∉ processed.map keyOf :=
      fun hc => hknotin ((hkeys _).mpr hc)
    rw [insertRec_lookup_none hlk]
    refine ⟨?_, ?_, ?_⟩
    · rw [List.map_append]
      exact hnd.append (List.nodup_singleton _)
        (List.disjoint_singleton.mpr hknotin)
    · intro k
      rw [List.map_append, List.mem_append]
      rw [← hkeysnew k]
      simp [hkeys k]
    · intro kv hkv
      rcases List.mem_append.mp hkv with hm | hnew
      · have hold := hbest kv hm
        have hne : kv.1 ≠ keyOf r :=
          fun hc => hknotin (hc ▸ List.mem_map_of_mem _ hm)
        exact ⟨hold.1, by
          rw [bestOfGroup_append_ne (fun hc => hne hc.symm)]
          exact hold.2⟩
      · have hkv' : kv = (keyOf r, r) := by simpa using hnew
        subst hkv'
        refine ⟨rfl, ?_⟩
        exact bestOfGroup_append_self_nil rfl
          (groupFor_eq_nil_of_not_mem hknotproc)
  | some cur =>
    have hcur_mem : (keyOf r, cur) ∈ m := lookupKey_some_mem _ _ hlk
    have hkin : keyOf r ∈ m.map Prod.fst := List.mem_map_of_mem _ hcur_mem
    have hbog : bestOfGroup processed (keyOf r) = some cur := (hbest _ hcur_mem).2
    obtain ⟨g0, gt, hg, hbg⟩ := bestOfGroup_eq_some hbog
    have hbnew : bestOfGroup (processed ++ [r]) (keyOf r)
        = some (if r.confidence > cur.confidence then r else cur) := by
      rw [bestOfGroup_append_self_cons rfl hg, hbg]
    have hkeys' : ∀ k, k ∈ m.map Prod.fst ↔ k ∈ (processed ++ [r]).map keyOf := by
      intro k
      rw [← hkeysnew k]
      constructor
      · intro hk
        exact Or.inl ((hkeys k).mp hk)
      · rintro (hk | rfl)
        · exact (hkeys k).mpr hk
        · exact hkin
    by_cases hc : r.confidence > cur.confidence
    · rw [insertRec_lookup_gt hlk hc]
      refine ⟨?_, ?_, ?_⟩
      · rw [updateAssoc_map_fst]
        exact hnd
      · intro k
        rw [updateAssoc_map_fst]
        exact hkeys' k
      · intro kv hkv
        rcases mem_updateAssoc_cases hnd kv hkv with ⟨hmem, hne⟩ | rfl
        · have hold := hbest kv hmem
          exact ⟨hold.1, by
            rw [bestOfGroup_append_ne (fun hc2 => hne hc2.symm)]
            exact hold.2⟩
        · refine ⟨rfl, ?_⟩
          rw [hbnew, if_pos hc]
    · rw [insertRec_lookup_le hlk hc]
      refine ⟨hnd, hkeys', ?_⟩
      intro kv hkv
      have hold := hbest kv hkv
      by_cases hke : kv.1 = keyOf r
      · have hkv2 : (kv.1, kv.2) ∈ m := hkv
        rw [hke] at hkv2
        have hcur2 : kv.2 = cur := nodup_key_unique hnd hkv2 hcur_mem
        refine ⟨hold.1, ?_⟩
        rw [hke, hbnew, if_neg hc, hcur2]
      · refine ⟨hold.1, ?_⟩
        rw [bestOfGroup_append_ne (fun hc2 => hke hc2.symm)]
        exact hold.2

lemma aggInv_fold :
    ∀ (rs processed : List AspectSentiment) (m : List (String × AspectSentiment)),
      AggInv processed m → AggInv (processed ++ rs) (rs.foldl insertRec m) := by
  intro rs
  induction rs with
  | nil => intro processed m h; simpa using h
  | cons r rest ih =>
    intro processed m h
    have hstep := aggInv_step h r
    have := ih (processed ++ [r]) (insertRec m r) hstep
    rw [List.append_assoc, List.singleton_append] at this
    exact this

/-- C5: aggregation groups records by lowercased aspect text and returns
exactly one record per group: the duplicate-free output keys are exactly
the input's keys, and each surviving record is its group's earliest
record of maximal confidence (the fold keeps the incumbent on ties). -/
theorem c5_aggregate_keeps_best (rs : List AspectSentiment) :
    ((aggregate rs).map keyOf).Nodup ∧
    (∀ k, k ∈ (aggregate rs).map keyOf ↔ k ∈ rs.map keyOf) ∧
    (∀ r ∈ aggregate rs, bestOfGroup rs (keyOf r) = some r) := by
  have hinv : AggInv rs (rs.foldl insertRec []) := by
    have h := aggInv_fold rs [] [] aggInv_nil
    simpa using h
  obtain ⟨hnd, hkeys, hbest⟩ := hinv
  have hmapeq : (aggregate rs).map keyOf = (rs.foldl insertRec []).map Prod.fst := by
    unfold aggregate
    rw [List.map_map]
    exact List.map_congr_left (fun kv hkv => ((hbest kv hkv).1).symm)
  refine ⟨?_, ?_, ?_⟩
  · rw [hmapeq]
    exact hnd
  · intro k
    rw [hmapeq]
    exact hkeys k
  · intro r hr
    obtain ⟨kv, hkv, rfl⟩ := List.mem_map.mp hr
    have h := hbest kv hkv
    rw [← h.1]
    exact h.2

theorem c5_witness :
    aggregate [rPizzaLow, rPizzaHigh] = [rPizzaHigh] ∧
    bestOfGroup [rPizzaLow, rPizzaHigh] (keyOf rPizzaHigh) = some rPizzaHigh := by
  have h1 : lookupKey (keyOf rPizzaHigh) [(keyOf rPizzaLow, rPizzaLow)]
      = some rPizzaLow := rfl
  have hc : rPizzaHigh.confidence > rPizzaLow.confidence := by
    norm_num [rPizzaHigh, rPizzaLow]
  have hagg : aggregate [rPizzaLow, rPizzaHigh] = [rPizzaHigh] := by
    unfold aggregate
    show ((insertRec (insertRec [] rPizzaLow) rPizzaHigh).map (fun kv => kv.2)) = _
    have h0 : insertRec [] rPizzaLow = [(keyOf rPizzaLow, rPizzaLow)] := rfl
    rw [h0, insertRec_lookup_gt h1 hc]
    rfl
  refine ⟨hagg, ?_⟩
  have hmem : rPizzaHigh ∈ aggregate [rPizzaLow, rPizzaHigh] := by
    rw [hagg]
    exact List.mem_singleton.mpr rfl
  exact (c5_aggregate_keeps_best [rPizzaLow, rPizzaHigh]).2.2 rPizzaHigh hmem
